import Mathlib

/-!
Shallow embedding of libzt's `SocketTap` (src/SocketTap.cpp, STACK_PICO build)
together with theorems checking the specification's claims about it.

Conventions of the embedding:
* `InetAddress` and `MulticastGroup` are value types whose only relevant
  structure here is a decidable linear order; they are modelled as `Nat`.
* Backend (picoTCP) operations are not part of the sources under analysis;
  where one matters it is modelled either as an oracle parameter (interface
  registration, stack write) or, where the claim needs its effect on a
  `Connection` record, from the specification (see `pico_Close`).
* C++ loops that are not structurally recursive are modelled with an explicit
  fuel argument that is a proven upper bound on the number of iterations, so
  that every definition is evaluable by `decide`/`rfl`.
-/

namespace ZeroTier

/-- Modelled from the spec: InetAddress is a comparable, orderable,
dual-stack-aware value type.  Only its decidable linear order and equality are
used by SocketTap, so it is modelled as `Nat`. -/
abbrev InetAddress := Nat

/-- Modelled from the spec: MulticastGroup is an orderable value type derived
deterministically from an `InetAddress`; modelled as `Nat`. -/
abbrev MulticastGroup := Nat

/-- Lifecycle states of a `Connection` (libzt's `ZT_SOCK_STATE_*` values; the
code under analysis only distinguishes LISTENING, and the spec's data model
adds a terminal CLOSED state). -/
inductive SockState where
  | listening
  | connecting
  | connected
  | closed
deriving DecidableEq, Repr

/-- Linux value of the `SOCK_RAW` socket-type constant. -/
def SOCK_RAW : Nat := 3

/-- One application-visible transport endpoint (`struct Connection`).
`sock` is the application-facing PhySocket handle (`none` models a null
pointer); `closure_ts = -1` is the "not yet closed" sentinel used by
`SocketTap::Housekeeping`. -/
structure Connection where
  socket_type : Nat
  state : SockState
  sock : Option Nat
  closure_ts : Int
deriving DecidableEq, Repr

/-- SocketTap::registerIpWithStack (SocketTap.cpp lines 126-141), STACK_PICO
build.  `backend = none` models a null `picostack` pointer.  When a stack
object exists the source calls `picostack->pico_init_interface(this, ip)` and
then returns `true` unconditionally: the Boolean result of
`pico_init_interface` (declared in picoTCP.hpp line 93) is discarded, which the
oracle argument `init` makes explicit below. -/
def registerIpWithStack (backend : Option (InetAddress → Bool))
    (ip : InetAddress) : Bool :=
  match backend with
  | some init =>
      let _registrationOutcome := init ip
      true
  | none => false

/-- SocketTap::addIp (lines 143-161), stack build (the `NO_STACK` branch is
compiled out).  On a `true` from `registerIpWithStack` the address is pushed
onto the vector, which is then re-sorted with `std::sort`; nothing
deduplicates the vector.  `std::sort` produces the (unique, since `≤` is a
linear order) sorted permutation, modelled by `List.insertionSort`. -/
def addIp (backend : Option (InetAddress → Bool)) (ips : List InetAddress)
    (ip : InetAddress) : Bool × List InetAddress :=
  if registerIpWithStack backend ip then
    (true, List.insertionSort (· ≤ ·) (ips ++ [ip]))
  else
    (false, ips)

/-- SocketTap::removeIp (lines 163-177): `std::find` the first equal element
and erase it, returning false when the address is absent.  Backend
de-registration is an acknowledged FIXME gap in the source and has no effect
on the vector. -/
def removeIp (ips : List InetAddress) (ip : InetAddress) :
    Bool × List InetAddress :=
  if ip ∈ ips then (true, ips.erase ip) else (false, ips)

/-- One call in a sequence of address operations on a SocketTap. -/
inductive AddrOp where
  | add (ip : InetAddress)
  | remove (ip : InetAddress)
deriving DecidableEq, Repr

/-- State of the address vector `_ips` after a sequence of
`addIp`/`removeIp` calls. -/
def applyAddrOps (backend : Option (InetAddress → Bool)) :
    List AddrOp → List InetAddress → List InetAddress
  | [], ips => ips
  | AddrOp.add ip :: rest, ips => applyAddrOps backend rest (addIp backend ips ip).2
  | AddrOp.remove ip :: rest, ips => applyAddrOps backend rest (removeIp ips ip).2

/-- Helper for `cduniq`: the kept elements among `l` when the previously kept
element is `prev` (the write phase of `std::unique`). -/
def cduniqFrom (prev : MulticastGroup) : List MulticastGroup → List MulticastGroup
  | [] => []
  | b :: rest => if b = prev then cduniqFrom prev rest else b :: cduniqFrom b rest

/-- Consecutive-duplicate removal: the sequence of values written (kept) by
`std::unique`. -/
def cduniq : List MulticastGroup → List MulticastGroup
  | [] => []
  | a :: rest => a :: cduniqFrom a rest

/-- Effect of line 220's `std::unique(newGroups.begin(), newGroups.end())` on
the vector: the call's return value is discarded and the vector is never
resized, so the deduplicated values occupy the first `(cduniq xs).length`
positions and every later position keeps its original element. -/
def uniqueNoErase (xs : List MulticastGroup) : List MulticastGroup :=
  cduniq xs ++ xs.drop (cduniq xs).length

/-- Iteration of `std::lower_bound` on the index range `[lo, hi)` of `xs`.
The fuel argument bounds the number of iterations; `hi - lo` always suffices
because the range shrinks strictly each step, and when fuel remains the
function behaves exactly like the library loop. -/
def lowerBoundAux (xs : List MulticastGroup) (x : MulticastGroup) :
    Nat → Nat → Nat → Nat
  | 0, lo, _ => lo
  | fuel + 1, lo, hi =>
      if lo < hi then
        if xs.getD ((lo + hi) / 2) 0 < x then
          lowerBoundAux xs x fuel ((lo + hi) / 2 + 1) hi
        else lowerBoundAux xs x fuel lo ((lo + hi) / 2)
      else lo

/-- std::lower_bound over the whole list. -/
def lowerBound (xs : List MulticastGroup) (x : MulticastGroup) : Nat :=
  lowerBoundAux xs x xs.length 0 xs.length

/-- std::binary_search as used at lines 223 and 227: `lower_bound`, then
a bounds check and the one-sided comparison `!(value < *it)`. -/
def binarySearch (xs : List MulticastGroup) (x : MulticastGroup) : Bool :=
  decide (lowerBound xs x < xs.length) &&
    !(decide (x < xs.getD (lowerBound xs x) 0))

/-- Result of one `scanMulticastGroups` call: the elements appended to the
caller's `added` and `removed` vectors and the new `_multicastGroups` list
swapped in at line 230. -/
structure ScanResult where
  added : List MulticastGroup
  removed : List MulticastGroup
  tracked : List MulticastGroup
deriving DecidableEq, Repr

/-- SocketTap::scanMulticastGroups (lines 209-231): derive one group per
current address (`derive` models the external value function
`MulticastGroup::deriveMulticastGroupForAddressResolution`), sort, apply
`std::unique` with its result discarded (`uniqueNoErase`), then push every new
group absent from the old set and every old group absent from the new set,
both via `std::binary_search`, and finally swap the stored set. -/
def scanMulticastGroups (derive : InetAddress → MulticastGroup)
    (ips : List InetAddress) (tracked : List MulticastGroup) : ScanResult :=
  let newGroups := uniqueNoErase (List.insertionSort (· ≤ ·) (ips.map derive))
  { added := newGroups.filter (fun m => !(binarySearch tracked m))
    removed := tracked.filter (fun m => !(binarySearch newGroups m))
    tracked := newGroups }

/-- One invocation of the frame-delivery callback `_handler` at line 346; the
opaque context pointer and the unused second slot are omitted, the remaining
arguments appear in call order. -/
structure HandlerCall where
  nwid : Nat
  srcMac : List Nat
  destMac : List Nat
  etherType : Nat
  vlan : Nat
  payload : List Nat
  payloadLen : Int
deriving DecidableEq, Repr

/-- SocketTap::Write (lines 339-355).  `data` is the byte buffer (`len` is its
length).  For a raw socket the buffer is parsed in place as an Ethernet frame:
`ether_dhost` = bytes 0-5, `ether_shost` = bytes 6-11, `ether_type` = bytes
12-13 in network byte order (so the host value after `Utils::ntoh` is
`256 * b12 + b13`), and the handler is invoked once with the payload starting
at offset 14.  Otherwise the buffer goes to the backend; `stackWrite = none`
models a null `picostack`, returning -1. -/
def Write (nwid : Nat) (stackWrite : Option (List Nat → Int))
    (conn : Connection) (data : List Nat) : Int × List HandlerCall :=
  if conn.socket_type = SOCK_RAW then
    ((data.length : Int),
     [{ nwid := nwid
        srcMac := (data.drop 6).take 6
        destMac := data.take 6
        etherType := 256 * data.getD 12 0 + data.getD 13 0
        vlan := 0
        payload := data.drop 14
        payloadLen := (data.length : Int) - 14 }])
  else
    match stackWrite with
    | some w => (w data, [])
    | none => (-1, [])

/-- Observable side effects of SocketTap::Close, in program order. -/
inductive CloseEffect where
  | backendClose
  | phyClose (s : Nat)
  | fdClose (s : Nat)
deriving DecidableEq, Repr

/-- Modelled from the spec: `picoTCP::pico_Close` (backend code, not under
src/) releases the backend-level socket; per the spec's data-model invariant a
Connection transitions to CLOSED exactly once and its closure timestamp is set
at that moment and never changes again. -/
def pico_Close (now : Int) (c : Connection) : Connection :=
  if c.state = SockState.closed then c
  else { c with state := SockState.closed, closure_ts := now }

/-- SocketTap::Close (lines 357-392), STACK_PICO build, returning
(result, connection record after the call, connection table after the call,
ordered side effects).  A null connection returns -1 untouched; otherwise
`pico_Close` runs first, then a null `conn->sock` returns -1, then a LISTENING
connection returns -1 without Phy teardown; every other connection gets
`_phy.close` and the descriptor `close`.  The table-erase step at lines
382-389 is commented out in the source, so the table is returned unchanged on
every path. -/
def Close (now : Int) (conn : Option Connection) (table : List Connection) :
    Int × Option Connection × List Connection × List CloseEffect :=
  match conn with
  | none => (-1, none, table, [])
  | some c =>
    let c1 := pico_Close now c
    match c.sock with
    | none => (-1, some c1, table, [CloseEffect.backendClose])
    | some s =>
      if c.state = SockState.listening then
        (-1, some c1, table, [CloseEffect.backendClose])
      else
        (0, some c1, table,
         [CloseEffect.backendClose, CloseEffect.phyClose s, CloseEffect.fdClose s])

/-- The reclamation loop of SocketTap::Housekeeping (lines 401-407), iterating
an index over a shrinking vector: element `i` is examined; if its closure
timestamp is set and its age exceeds `wait` (`ZT_CONNECTION_DELETE_WAIT_TIME`)
it is erased at index `i`, after which the loop still increments `i`.  The
fuel argument bounds the number of iterations; `conns.length - i` always
suffices since each iteration increments `i` by one and never grows the
vector. -/
def sweepAux (now wait : Int) : Nat → List Connection → Nat → List Connection
  | 0, conns, _ => conns
  | fuel + 1, conns, i =>
      if i < conns.length then
        let c := conns.getD i ⟨0, SockState.closed, none, -1⟩
        if c.closure_ts ≠ -1 ∧ now > c.closure_ts + wait then
          sweepAux now wait fuel (conns.eraseIdx i) (i + 1)
        else
          sweepAux now wait fuel conns (i + 1)
      else conns

/-- The reclamation scan started at index 0. -/
def sweep (now wait : Int) (conns : List Connection) : List Connection :=
  sweepAux now wait conns.length conns 0

/-- Connection-table state relevant to Housekeeping. -/
structure TapConnState where
  conns : List Connection
  last_housekeeping_ts : Int
deriving DecidableEq, Repr

/-- SocketTap::Housekeeping (lines 394-411), with the current time passed
explicitly; `interval` models `ZT_HOUSEKEEPING_INTERVAL`.  When the elapsed
time since the last sweep exceeds the interval, the reclamation scan runs and
the last-swept timestamp is updated regardless of what was reclaimed. -/
def Housekeeping (interval wait now : Int) (st : TapConnState) : TapConnState :=
  if now > st.last_housekeeping_ts + interval then
    { conns := sweep now wait st.conns, last_housekeeping_ts := now }
  else st

/-!
Helper lemmas about the embedded list algorithms.
-/

theorem cduniqFrom_sublist (prev : MulticastGroup) (l : List MulticastGroup) :
    List.Sublist (cduniqFrom prev l) l := by
  induction l generalizing prev with
  | nil => simp [cduniqFrom]
  | cons b rest ih =>
    rw [cduniqFrom]
    by_cases hb : b = prev
    · simp only [if_pos hb]
      exact List.Sublist.cons b (ih prev)
    · simp only [if_neg hb]
      exact List.Sublist.cons₂ b (ih b)

theorem cduniq_sublist (l : List MulticastGroup) : List.Sublist (cduniq l) l := by
  cases l with
  | nil => simp [cduniq]
  | cons a rest =>
    rw [cduniq]
    exact List.Sublist.cons₂ a (cduniqFrom_sublist a rest)

theorem mem_cduniqFrom_or (prev : MulticastGroup) (l : List MulticastGroup)
    (x : MulticastGroup) (hx : x ∈ l) : x = prev ∨ x ∈ cduniqFrom prev l := by
  induction l generalizing prev with
  | nil => cases hx
  | cons b rest ih =>
    rw [cduniqFrom]
    rcases List.mem_cons.mp hx with rfl | hxr
    · by_cases hb : x = prev
      · exact Or.inl hb
      · right
        simp only [if_neg hb]
        exact List.mem_cons_self x _
    · by_cases hb : b = prev
      · simpa only [if_pos hb] using ih prev hxr
      · simp only [if_neg hb]
        rcases ih b hxr with rfl | hmem
        · exact Or.inr (List.mem_cons_self x _)
        · exact Or.inr (List.mem_cons_of_mem b hmem)

theorem mem_cduniq (l : List MulticastGroup) (x : MulticastGroup) :
    x ∈ cduniq l ↔ x ∈ l := by
  constructor
  · exact fun h => (cduniq_sublist l).subset h
  · intro h
    cases l with
    | nil => cases h
    | cons a rest =>
      rw [cduniq]
      rcases List.mem_cons.mp h with rfl | hr
      · exact List.mem_cons_self x _
      · rcases mem_cduniqFrom_or a rest x hr with rfl | hm
        · exact List.mem_cons_self x _
        · exact List.mem_cons_of_mem a hm

theorem cduniqFrom_eq_self (prev : MulticastGroup) (l : List MulticastGroup)
    (h : (prev :: l).Nodup) : cduniqFrom prev l = l := by
  induction l generalizing prev with
  | nil => rfl
  | cons b rest ih =>
    rw [cduniqFrom]
    have hb : ¬ b = prev := by
      intro hb
      exact (List.nodup_cons.mp h).1 (hb ▸ List.mem_cons_self b rest)
    simp only [if_neg hb]
    congr 1
    exact ih b (List.nodup_cons.mp h).2

theorem cduniq_eq_self (l : List MulticastGroup) (h : l.Nodup) : cduniq l = l := by
  cases l with
  | nil => rfl
  | cons a rest =>
    rw [cduniq, cduniqFrom_eq_self a rest h]

theorem mem_uniqueNoErase (l : List MulticastGroup) (x : MulticastGroup) :
    x ∈ uniqueNoErase l ↔ x ∈ l := by
  unfold uniqueNoErase
  constructor
  · intro h
    rcases List.mem_append.mp h with h | h
    · exact (mem_cduniq l x).mp h
    · exact (List.drop_sublist _ _).subset h
  · intro h
    exact List.mem_append.mpr (Or.inl ((mem_cduniq l x).mpr h))

theorem uniqueNoErase_eq_self (l : List MulticastGroup) (h : l.Nodup) :
    uniqueNoErase l = l := by
  unfold uniqueNoErase
  rw [cduniq_eq_self l h, List.drop_length, List.append_nil]

theorem lowerBoundAux_bounds (xs : List MulticastGroup) (x : MulticastGroup) :
    ∀ fuel lo hi, hi - lo ≤ fuel → lo ≤ hi → hi ≤ xs.length →
      (lo = 0 ∨ xs.getD (lo - 1) 0 < x) →
      (hi = xs.length ∨ ¬ xs.getD hi 0 < x) →
      lo ≤ lowerBoundAux xs x fuel lo hi ∧
      lowerBoundAux xs x fuel lo hi ≤ hi ∧
      (lowerBoundAux xs x fuel lo hi = 0 ∨
        xs.getD (lowerBoundAux xs x fuel lo hi - 1) 0 < x) ∧
      (lowerBoundAux xs x fuel lo hi = xs.length ∨
        ¬ xs.getD (lowerBoundAux xs x fuel lo hi) 0 < x) := by
  intro fuel
  induction fuel with
  | zero =>
    intro lo hi hfuel hle _hlen hlow hhigh
    have hlh : lo = hi := by omega
    subst hlh
    simp only [lowerBoundAux]
    exact ⟨le_refl _, le_refl _, hlow, hhigh⟩
  | succ fuel ih =>
    intro lo hi hfuel hle hlen hlow hhigh
    by_cases h : lo < hi
    · by_cases hm : xs.getD ((lo + hi) / 2) 0 < x
      · have hrec := ih ((lo + hi) / 2 + 1) hi (by omega) (by omega) hlen
          (Or.inr (by simpa using hm)) hhigh
        simp only [lowerBoundAux, if_pos h, if_pos hm]
        exact ⟨by omega, hrec.2.1, hrec.2.2⟩
      · have hrec := ih lo ((lo + hi) / 2) (by omega) (by omega) (by omega)
          hlow (Or.inr hm)
        simp only [lowerBoundAux, if_pos h, if_neg hm]
        exact ⟨hrec.1, by omega, hrec.2.2⟩
    · have hlh : lo = hi := by omega
      subst hlh
      simp only [lowerBoundAux, if_neg h]
      exact ⟨le_refl _, le_refl _, hlow, hhigh⟩

theorem lowerBound_bounds (xs : List MulticastGroup) (x : MulticastGroup) :
    lowerBound xs x ≤ xs.length ∧
    (lowerBound xs x = 0 ∨ xs.getD (lowerBound xs x - 1) 0 < x) ∧
    (lowerBound xs x = xs.length ∨ ¬ xs.getD (lowerBound xs x) 0 < x) := by
  have h := lowerBoundAux_bounds xs x xs.length 0 xs.length (by omega)
    (Nat.zero_le _) (le_refl _) (Or.inl rfl) (Or.inl rfl)
  exact ⟨h.2.1, h.2.2.1, h.2.2.2⟩

theorem getD_le_getD_of_sorted (l : List MulticastGroup)
    (hs : List.Sorted (· ≤ ·) l) {p q : Nat} (hpq : p ≤ q) (hq : q < l.length) :
    l.getD p 0 ≤ l.getD q 0 := by
  have hp : p < l.length := lt_of_le_of_lt (Nat.lt_succ_iff.mp (Nat.lt_succ_of_le hpq)) hq
  rw [List.getD_eq_getElem l 0 hp, List.getD_eq_getElem l 0 hq]
  rcases Nat.eq_or_lt_of_le hpq with rfl | hlt
  · exact le_refl _
  · exact List.pairwise_iff_getElem.mp hs p q hp hq hlt

theorem exists_getD_of_mem (l : List MulticastGroup) {x : MulticastGroup}
    (hx : x ∈ l) : ∃ p, p < l.length ∧ l.getD p 0 = x := by
  obtain ⟨p, hp, hpx⟩ := List.getElem_of_mem hx
  exact ⟨p, hp, by rw [List.getD_eq_getElem l 0 hp]; exact hpx⟩

theorem getD_mem_of_lt (l : List MulticastGroup) {p : Nat} (hp : p < l.length) :
    l.getD p 0 ∈ l := by
  rw [List.getD_eq_getElem l 0 hp]
  exact List.getElem_mem hp

theorem sorted_gap_absurd (l : List MulticastGroup)
    (hs : List.Sorted (· ≤ ·) l) {x : MulticastGroup} (hx : x ∈ l) {i : Nat}
    (hi : i < l.length) (hlt : l.getD i 0 < x)
    (hup : i + 1 = l.length ∨ x < l.getD (i + 1) 0) : False := by
  obtain ⟨p, hp, hpx⟩ := exists_getD_of_mem l hx
  rcases le_or_lt p i with hpi | hpi
  · have hle := getD_le_getD_of_sorted l hs hpi hi
    rw [hpx] at hle
    exact absurd hlt (not_lt.mpr hle)
  · rcases hup with hend | hnext
    · omega
    · have hle := getD_le_getD_of_sorted l hs hpi hp
      rw [hpx] at hle
      exact absurd (lt_of_lt_of_le hnext hle) (lt_irrefl x)

theorem sorted_lt_head_absurd (l : List MulticastGroup)
    (hs : List.Sorted (· ≤ ·) l) {x : MulticastGroup} (hx : x ∈ l)
    (hlt : x < l.getD 0 0) : False := by
  obtain ⟨p, hp, hpx⟩ := exists_getD_of_mem l hx
  have hle := getD_le_getD_of_sorted l hs (Nat.zero_le p) hp
  rw [hpx] at hle
  exact absurd (lt_of_lt_of_le hlt hle) (lt_irrefl x)

theorem binarySearch_eq_true_imp_mem (l : List MulticastGroup)
    (x : MulticastGroup) (h : binarySearch l x = true) : x ∈ l := by
  obtain ⟨_hle, _hlow, hhigh⟩ := lowerBound_bounds l x
  unfold binarySearch at h
  rw [Bool.and_eq_true, Bool.not_eq_eq_eq_not, Bool.not_true, decide_eq_true_eq,
    decide_eq_false_iff_not] at h
  obtain ⟨h1, h2⟩ := h
  have h3 : ¬ l.getD (lowerBound l x) 0 < x := hhigh.resolve_left (by omega)
  have heq : l.getD (lowerBound l x) 0 = x :=
    le_antisymm (not_lt.mp h2) (not_lt.mp h3)
  exact heq ▸ getD_mem_of_lt l h1

theorem binarySearch_found_of_shape (D T : List MulticastGroup)
    (hDsorted : List.Sorted (· ≤ ·) D) (hTsorted : List.Sorted (· ≤ ·) T)
    (x : MulticastGroup) (hxD : x ∈ D)
    (hmemT : ∀ j, j < T.length → T.getD j 0 < x → x ∈ T) :
    binarySearch (D ++ T) x = true := by
  obtain ⟨hr_le, hlow, hhigh⟩ := lowerBound_bounds (D ++ T) x
  have hklen : 0 < D.length := List.length_pos.mpr (List.ne_nil_of_mem hxD)
  have hNlen : (D ++ T).length = D.length + T.length := List.length_append D T
  have hrlt : lowerBound (D ++ T) x < (D ++ T).length := by
    rcases Nat.lt_or_ge (lowerBound (D ++ T) x) ((D ++ T).length) with h | h
    · exact h
    exfalso
    have hrn : lowerBound (D ++ T) x = (D ++ T).length := le_antisymm hr_le h
    rcases hlow with hr0 | hprev
    · omega
    · rw [hrn] at hprev
      by_cases hTnil : T.length = 0
      · have hidx : (D ++ T).length - 1 < D.length := by omega
        rw [List.getD_append D T 0 _ hidx] at hprev
        exact sorted_gap_absurd D hDsorted hxD hidx hprev (Or.inl (by omega))
      · have hidx : D.length ≤ (D ++ T).length - 1 := by omega
        rw [List.getD_append_right D T 0 _ hidx] at hprev
        have hjlt : (D ++ T).length - 1 - D.length < T.length := by omega
        have hxT : x ∈ T := hmemT _ hjlt hprev
        exact sorted_gap_absurd T hTsorted hxT hjlt hprev (Or.inl (by omega))
  have hnotgt : ¬ x < (D ++ T).getD (lowerBound (D ++ T) x) 0 := by
    intro hgt
    rcases Nat.lt_or_ge (lowerBound (D ++ T) x) D.length with hrD | hrD
    · rw [List.getD_append D T 0 _ hrD] at hgt
      rcases Nat.eq_zero_or_pos (lowerBound (D ++ T) x) with hr0 | hrpos
      · rw [hr0] at hgt
        exact sorted_lt_head_absurd D hDsorted hxD hgt
      · have hprev := hlow.resolve_left (by omega)
        have hpD : lowerBound (D ++ T) x - 1 < D.length := by omega
        rw [List.getD_append D T 0 _ hpD] at hprev
        refine sorted_gap_absurd D hDsorted hxD hpD hprev (Or.inr ?_)
        have hstep : lowerBound (D ++ T) x - 1 + 1 = lowerBound (D ++ T) x := by omega
        rw [hstep]
        exact hgt
    · rcases Nat.eq_or_lt_of_le hrD with hreq | hrgt
      · have hprev := hlow.resolve_left (by omega)
        have hpD : lowerBound (D ++ T) x - 1 < D.length := by omega
        rw [List.getD_append D T 0 _ hpD] at hprev
        exact sorted_gap_absurd D hDsorted hxD hpD hprev (Or.inl (by omega))
      · have hprev := hlow.resolve_left (by omega)
        have hpT : D.length ≤ lowerBound (D ++ T) x - 1 := by omega
        rw [List.getD_append_right D T 0 _ hpT] at hprev
        have hjlt : lowerBound (D ++ T) x - 1 - D.length < T.length := by omega
        have hxT : x ∈ T := hmemT _ hjlt hprev
        rw [List.getD_append_right D T 0 _ (by omega : D.length ≤ lowerBound (D ++ T) x)] at hgt
        refine sorted_gap_absurd T hTsorted hxT hjlt hprev (Or.inr ?_)
        have hstep : lowerBound (D ++ T) x - 1 - D.length + 1 =
            lowerBound (D ++ T) x - D.length := by omega
        rw [hstep]
        exact hgt
  unfold binarySearch
  rw [Bool.and_eq_true, Bool.not_eq_eq_eq_not, Bool.not_true, decide_eq_true_eq,
    decide_eq_false_iff_not]
  exact ⟨hrlt, hnotgt⟩

theorem binarySearch_uniqueNoErase (S : List MulticastGroup)
    (hs : List.Sorted (· ≤ ·) S) (x : MulticastGroup) (hx : x ∈ S) :
    binarySearch (uniqueNoErase S) x = true := by
  have hDsorted : List.Sorted (· ≤ ·) (cduniq S) :=
    List.Pairwise.sublist (cduniq_sublist S) hs
  have hTsorted : List.Sorted (· ≤ ·) (S.drop (cduniq S).length) :=
    List.Pairwise.sublist (List.drop_sublist _ _) hs
  have hxD : x ∈ cduniq S := (mem_cduniq S x).mpr hx
  have hmemT : ∀ j, j < (S.drop (cduniq S).length).length →
      (S.drop (cduniq S).length).getD j 0 < x → x ∈ S.drop (cduniq S).length := by
    intro j hj hjx
    have hyT : (S.drop (cduniq S).length).getD j 0 ∈ S.drop (cduniq S).length :=
      getD_mem_of_lt _ hj
    have hxsplit : x ∈ S.take (cduniq S).length ++ S.drop (cduniq S).length := by
      rw [List.take_append_drop]
      exact hx
    rcases List.mem_append.mp hxsplit with hxtake | hxdrop
    · exact absurd hjx (not_lt.mpr (hs.rel_of_mem_take_of_mem_drop hxtake hyT))
    · exact hxdrop
  exact binarySearch_found_of_shape (cduniq S) (S.drop (cduniq S).length)
    hDsorted hTsorted x hxD hmemT

theorem binarySearch_sorted_nodup (l : List MulticastGroup)
    (hs : List.Sorted (· ≤ ·) l) (hn : l.Nodup) (x : MulticastGroup) :
    binarySearch l x = decide (x ∈ l) := by
  by_cases hx : x ∈ l
  · have h := binarySearch_uniqueNoErase l hs x hx
    rw [uniqueNoErase_eq_self l hn] at h
    simp [h, hx]
  · have h : ¬ binarySearch l x = true :=
      fun h => hx (binarySearch_eq_true_imp_mem l x h)
    rw [decide_eq_false hx]
    exact Bool.of_not_eq_true h

theorem addIp_sorted (backend : Option (InetAddress → Bool))
    (ips : List InetAddress) (ip : InetAddress)
    (h : List.Sorted (· ≤ ·) ips) :
    List.Sorted (· ≤ ·) (addIp backend ips ip).2 := by
  unfold addIp
  split
  · exact List.sorted_insertionSort _ _
  · exact h

theorem removeIp_sorted (ips : List InetAddress) (ip : InetAddress)
    (h : List.Sorted (· ≤ ·) ips) :
    List.Sorted (· ≤ ·) (removeIp ips ip).2 := by
  unfold removeIp
  split
  · exact List.Pairwise.sublist (List.erase_sublist ip ips) h
  · exact h

theorem applyAddrOps_sorted (backend : Option (InetAddress → Bool))
    (ops : List AddrOp) :
    ∀ ips, List.Sorted (· ≤ ·) ips →
      List.Sorted (· ≤ ·) (applyAddrOps backend ops ips) := by
  induction ops with
  | nil => exact fun ips h => h
  | cons op rest ih =>
    intro ips h
    cases op with
    | add ip => exact ih _ (addIp_sorted backend ips ip h)
    | remove ip => exact ih _ (removeIp_sorted ips ip h)

/-!
Claim theorems.
-/

/-- C1 fails as stated: starting from an empty address set with a backend
configured, two addIp calls with the equal address 5 leave two copies of it in
the vector, so the set is not duplicate-free. -/
theorem C1_counterexample :
    applyAddrOps (some (fun _ => true)) [AddrOp.add 5, AddrOp.add 5] [] = [5, 5] ∧
    ¬ (applyAddrOps (some (fun _ => true)) [AddrOp.add 5, AddrOp.add 5] []).Nodup := by
  decide

/-- C1 (amended): after every finite sequence of addIp/removeIp calls starting
from the empty set, the address vector remains sorted in nondecreasing order;
it need not be duplicate-free, since addIp sorts but never deduplicates. -/
theorem C1_addresses_sorted (backend : Option (InetAddress → Bool))
    (ops : List AddrOp) :
    List.Sorted (· ≤ ·) (applyAddrOps backend ops []) :=
  applyAddrOps_sorted backend ops [] List.sorted_nil

/-- C2 fails on the code: with a stack present whose interface registration
fails for address 7 (the oracle constantly returns false), addIp nevertheless
returns true and inserts 7 into the empty address set, because
registerIpWithStack discards the Boolean result of pico_init_interface,
contradicting the comment at lines 154-155 of the source. -/
theorem C2_registration_failure_ignored :
    addIp (some (fun _ => false)) [] 7 = (true, [7]) := by
  decide

/-- C3: for a raw-socket Connection and a buffer of length at least 14, Write
bypasses the backend and performs exactly one frame-delivery callback, with
destination MAC = bytes 0-5, source MAC = bytes 6-11, ether type = bytes 12-13
converted from network to host byte order, payload at offset 14 of length
len - 14, and returns len. -/
theorem C3_raw_write (nwid : Nat) (stackWrite : Option (List Nat → Int))
    (conn : Connection) (data : List Nat)
    (hraw : conn.socket_type = SOCK_RAW) (_hlen : 14 ≤ data.length) :
    Write nwid stackWrite conn data =
      ((data.length : Int),
       [{ nwid := nwid
          srcMac := (data.drop 6).take 6
          destMac := data.take 6
          etherType := 256 * data.getD 12 0 + data.getD 13 0
          vlan := 0
          payload := data.drop 14
          payloadLen := (data.length : Int) - 14 }]) := by
  simp [Write, hraw]

/-- Witness for C3 on a concrete 16-byte frame. -/
theorem C3_raw_write_witness :
    Write 9 none ⟨SOCK_RAW, SockState.connected, some 4, -1⟩
        [1, 2, 3, 4, 5, 6, 7, 8, 9, 10, 11, 12, 0, 8, 100, 101] =
      ((16 : Int),
       [⟨9, [7, 8, 9, 10, 11, 12], [1, 2, 3, 4, 5, 6], 8, 0, [100, 101], 2⟩]) :=
  (C3_raw_write 9 none ⟨SOCK_RAW, SockState.connected, some 4, -1⟩
      [1, 2, 3, 4, 5, 6, 7, 8, 9, 10, 11, 12, 0, 8, 100, 101] rfl
      (by decide)).trans (by decide)

/-- C4 fails on the code: with interval 10, grace period 30, last sweep at 0
and current time 100, a table holding two connections that both closed at time
0 (ages far beyond the grace period) is swept down to one connection, not
zero: erasing index 0 still increments the loop index, skipping the element
that slid into index 0.  The leftover connection has a set closure timestamp
and an age exceeding the grace period, yet survives the sweep; the last-swept
timestamp is updated. -/
theorem C4_sweep_skips_second_expired :
    Housekeeping 10 30 100
        ⟨[⟨1, SockState.closed, none, 0⟩, ⟨1, SockState.closed, none, 0⟩], 0⟩ =
      ⟨[⟨1, SockState.closed, none, 0⟩], 100⟩ ∧
    (0 : Int) ≠ -1 ∧ (100 : Int) > 0 + 30 := by
  decide

/-- C7: Close on a null Connection returns -1 and has no side effects: the
table is unchanged and neither the backend close nor any Phy teardown runs. -/
theorem C7_close_null_noop (now : Int) (table : List Connection) :
    Close now none table = (-1, none, table, []) := rfl

/-- C8 fails as stated: Close on a LISTENING Connection (here with a non-null
sock) returns -1, the same failure code Close returns for a null Connection,
so the no-op branch does report failure to the caller. -/
theorem C8_counterexample :
    (Close 100 (some ⟨1, SockState.listening, some 5, -1⟩) []).1 = -1 ∧
    (Close 100 none []).1 = -1 := by
  decide

/-- C8 (amended): closing a LISTENING Connection skips the event-notification
and descriptor teardown (no Phy effects), still releases the backend-level
socket object via pico_Close, but returns -1 (the failure code) to the caller
rather than success. -/
theorem C8_close_listening (now : Int) (c : Connection)
    (table : List Connection) (h : c.state = SockState.listening) :
    Close now (some c) table =
      (-1, some (pico_Close now c), table, [CloseEffect.backendClose]) := by
  cases hs : c.sock <;> simp [Close, hs, h]

/-- Witness for C8 on a concrete LISTENING connection. -/
theorem C8_close_listening_witness :
    Close 100 (some ⟨1, SockState.listening, some 5, -1⟩) [] =
      (-1, some ⟨1, SockState.closed, some 5, 100⟩, [],
       [CloseEffect.backendClose]) :=
  (C8_close_listening 100 ⟨1, SockState.listening, some 5, -1⟩ [] rfl).trans
    (by decide)

/-- C9: for an open, non-listening Connection with a live application-facing
handle, Close releases the backend socket, then the event-notification
registration, then the descriptor, marks the record closed with its closure
timestamp set, and returns the table unchanged: removal is deferred to
Housekeeping (the erase at lines 382-389 is commented out). -/
theorem C9_close_defers_removal (now : Int) (c : Connection)
    (table : List Connection) (s : Nat) (hsock : c.sock = some s)
    (hlisten : c.state ≠ SockState.listening)
    (hopen : c.state ≠ SockState.closed) :
    Close now (some c) table =
      (0, some { c with state := SockState.closed, closure_ts := now }, table,
       [CloseEffect.backendClose, CloseEffect.phyClose s,
        CloseEffect.fdClose s]) := by
  simp [Close, hsock, hlisten, pico_Close, hopen]

/-- Witness for C9 on a concrete connected socket. -/
theorem C9_close_defers_removal_witness :
    Close 50 (some ⟨1, SockState.connected, some 7, -1⟩)
        [⟨1, SockState.connected, some 7, -1⟩] =
      (0, some ⟨1, SockState.closed, some 7, 50⟩,
       [⟨1, SockState.connected, some 7, -1⟩],
       [CloseEffect.backendClose, CloseEffect.phyClose 7,
        CloseEffect.fdClose 7]) :=
  (C9_close_defers_removal 50 ⟨1, SockState.connected, some 7, -1⟩
      [⟨1, SockState.connected, some 7, -1⟩] 7 rfl (by decide)
      (by decide)).trans (by decide)

/-- C10: for a non-null Connection whose application-facing handle is null,
Close returns -1, but the backend-level close has already run (the effect list
contains the backend close), so this failure return is not side-effect free
with respect to the backend socket. -/
theorem C10_close_null_sock (now : Int) (c : Connection)
    (table : List Connection) (hsock : c.sock = none) :
    Close now (some c) table =
      (-1, some (pico_Close now c), table, [CloseEffect.backendClose]) := by
  simp [Close, hsock]

/-- Witness for C10 on a concrete connection with a null handle. -/
theorem C10_close_null_sock_witness :
    Close 80 (some ⟨2, SockState.connected, none, -1⟩) [] =
      (-1, some ⟨2, SockState.closed, none, 80⟩, [],
       [CloseEffect.backendClose]) :=
  (C10_close_null_sock 80 ⟨2, SockState.connected, none, -1⟩ [] rfl).trans
    (by decide)

theorem filter_not_binarySearch_self (S : List MulticastGroup)
    (hs : List.Sorted (· ≤ ·) S) :
    (uniqueNoErase S).filter
      (fun m => !(binarySearch (uniqueNoErase S) m)) = [] := by
  refine List.filter_eq_nil_iff.mpr (fun m hm => ?_)
  have hmS : m ∈ S := (mem_uniqueNoErase S m).mp hm
  simp [binarySearch_uniqueNoErase S hs m hmS]

/-- C5 fails as stated: with the address vector [5, 5] (reachable because
addIp never deduplicates), derive the identity, and an empty tracked set, the
call appends the one new group 5 twice to `added` and stores a tracked list
with a duplicate, because the return value of std::unique is discarded; the
outputs are therefore not the exact sorted-set differences. -/
theorem C5_counterexample :
    (scanMulticastGroups id [5, 5] []).added = [5, 5] ∧
    ¬ (scanMulticastGroups id [5, 5] []).added.Nodup ∧
    ¬ (scanMulticastGroups id [5, 5] []).tracked.Nodup := by
  decide

/-- C5 (amended): whenever the groups derived from the current addresses are
pairwise distinct and the previously tracked list is a sorted duplicate-free
set, scanMulticastGroups appends exactly the sorted new-minus-old groups to
`added`, exactly the old-minus-new groups to `removed`, and replaces the
tracked set with the sorted derived group list; when the derived groups
contain duplicates the outputs can contain duplicate entries. -/
theorem C5_scan_diff (derive : InetAddress → MulticastGroup)
    (ips : List InetAddress) (tracked : List MulticastGroup)
    (hts : List.Sorted (· ≤ ·) tracked) (htn : tracked.Nodup)
    (hnd : (ips.map derive).Nodup) :
    scanMulticastGroups derive ips tracked =
      { added := (List.insertionSort (· ≤ ·) (ips.map derive)).filter
          (fun m => decide (m ∉ tracked))
        removed := tracked.filter
          (fun m => decide (m ∉ List.insertionSort (· ≤ ·) (ips.map derive)))
        tracked := List.insertionSort (· ≤ ·) (ips.map derive) } := by
  have hSsort : List.Sorted (· ≤ ·) (List.insertionSort (· ≤ ·) (ips.map derive)) :=
    List.sorted_insertionSort _ _
  have hSnodup : (List.insertionSort (· ≤ ·) (ips.map derive)).Nodup :=
    ((List.perm_insertionSort (· ≤ ·) (ips.map derive)).nodup_iff).mpr hnd
  have hU : uniqueNoErase (List.insertionSort (· ≤ ·) (ips.map derive)) =
      List.insertionSort (· ≤ ·) (ips.map derive) :=
    uniqueNoErase_eq_self _ hSnodup
  unfold scanMulticastGroups
  simp only [hU]
  congr 1
  · refine List.filter_congr (fun m _hm => ?_)
    rw [binarySearch_sorted_nodup tracked hts htn m]
    exact decide_not.symm
  · refine List.filter_congr (fun m _hm => ?_)
    rw [binarySearch_sorted_nodup _ hSsort hSnodup m]
    exact decide_not.symm

/-- Witness for C5 (amended): addresses [2, 1] under the identity derivation
against the tracked set [2, 3] produce added = [1], removed = [3], and the new
tracked set [1, 2]. -/
theorem C5_scan_diff_witness :
    scanMulticastGroups id [2, 1] [2, 3] =
      { added := [1], removed := [3], tracked := [1, 2] } :=
  (C5_scan_diff id [2, 1] [2, 3] (by decide) (by decide) (by decide)).trans
    (by decide)

/-- C6: scanMulticastGroups is idempotent when the addresses are unchanged: a
second call with no intervening address mutation appends nothing to `added`
and nothing to `removed`, for every derivation, address list and initial
tracked state. -/
theorem C6_scan_idempotent (derive : InetAddress → MulticastGroup)
    (ips : List InetAddress) (tracked : List MulticastGroup) :
    (scanMulticastGroups derive ips
        (scanMulticastGroups derive ips tracked).tracked).added = [] ∧
    (scanMulticastGroups derive ips
        (scanMulticastGroups derive ips tracked).tracked).removed = [] := by
  have hs : List.Sorted (· ≤ ·) (List.insertionSort (· ≤ ·) (ips.map derive)) :=
    List.sorted_insertionSort _ _
  exact ⟨filter_not_binarySearch_self _ hs, filter_not_binarySearch_self _ hs⟩

end ZeroTier
